import Mathlib

/-!
Verification of the chunking and chaptered-assembly pipeline of the
obsidian-to-audiobook repository.

Python strings are embedded as `List Char`; Python `int` lengths and budgets
as `Nat` (all values involved are non-negative); audio durations (Python
floats holding ffprobe results and their exact sums) as `ℚ`.  Each definition
mirrors one Python function or statement of the source, named after it where
Lean allows.
-/

namespace OTA

/-- Python's default whitespace class for `str.strip()` (ASCII part):
space, tab, newline, carriage return, vertical tab, form feed. -/
def pyIsSpace (c : Char) : Bool :=
  c = ' ' || c = '\t' || c = '\n' || c = '\r' || c = '\x0b' || c = '\x0c'

/-- `s.lstrip()`: drop leading whitespace. -/
def lstrip (s : List Char) : List Char := s.dropWhile pyIsSpace

/-- Right strip of whitespace. -/
def rstripWS (s : List Char) : List Char := (s.reverse.dropWhile pyIsSpace).reverse

/-- Python `s.strip()`: drop leading and trailing whitespace. -/
def strip (s : List Char) : List Char := rstripWS (lstrip s)

/-- Python `sep.join(parts)` for a list separator. -/
def joinSep (sep : List Char) : List (List Char) → List Char
  | [] => []
  | [x] => x
  | x :: y :: rest => x ++ sep ++ joinSep sep (y :: rest)

/-- Python `s.split(sep)` for a one-character separator `sep`
(used by the source as `text.split('\n')` and `.split('|')`). -/
def splitChar (sep : Char) : List Char → List (List Char)
  | [] => [[]]
  | c :: rest =>
    if c = sep then [] :: splitChar sep rest
    else
      match splitChar sep rest with
      | [] => [[c]]
      | h :: t => (c :: h) :: t

/-- Python `s.split(sep)` for a two-character separator `[a, b]`
(used by the source as `text.split('\n\n')`), scanning left to right
over non-overlapping occurrences. -/
def split2 (a b : Char) : List Char → List (List Char)
  | [] => [[]]
  | [c] => [[c]]
  | c :: d :: rest =>
    if c = a ∧ d = b then [] :: split2 a b rest
    else
      match split2 a b (d :: rest) with
      | [] => [[c]]
      | h :: t => (c :: h) :: t

/-- Python `s.replace(old, new)` for two-character `old = [a, b]` and
`new = [x, y]`, scanning left to right over non-overlapping occurrences
(used by the source as `.replace('. ', '.|')` and friends). -/
def replace2 (a b x y : Char) : List Char → List Char
  | [] => []
  | [c] => [c]
  | c :: d :: rest =>
    if c = a ∧ d = b then x :: y :: replace2 a b x y rest
    else c :: replace2 a b x y (d :: rest)

/-- The sentence decomposition inside `split_text_into_chunks`
(src/3_md_to_mp3.py line 111):
`current_chunk.replace('. ', '.|').replace('! ', '!|').replace('? ', '?|').split('|')`. -/
def splitSentences (s : List Char) : List (List Char) :=
  splitChar '|'
    (replace2 '?' ' ' '?' '|'
      (replace2 '!' ' ' '!' '|'
        (replace2 '.' ' ' '.' '|' s)))

/-- One step of the inner sentence loop of `split_text_into_chunks`
(src/3_md_to_mp3.py lines 114-119); the state is `(chunks, temp_chunk)`. -/
def sentStep (M : Nat) (st : List (List Char) × List Char) (s : List Char) :
    List (List Char) × List Char :=
  if st.2 ≠ [] ∧ st.2.length + s.length > M then (st.1 ++ [strip st.2], s)
  else (st.1, st.2 ++ s)

/-- The greedy paragraph accumulation of `split_text_into_chunks`
(src/3_md_to_mp3.py lines 100-107): seal the current chunk when the
paragraph (plus the two delimiter characters) would overflow, otherwise
append it, separated by the paragraph delimiter. -/
def paraAccum (M : Nat) (st : List (List Char) × List Char) (p : List Char) :
    List (List Char) × List Char :=
  if st.2 ≠ [] ∧ st.2.length + p.length + 2 > M then (st.1 ++ [strip st.2], p)
  else if st.2 ≠ [] then (st.1, st.2 ++ '\n' :: '\n' :: p)
  else (st.1, p)

/-- One step of the paragraph loop of `split_text_into_chunks`
(src/3_md_to_mp3.py lines 98-121): accumulate the paragraph, then re-split
at sentence boundaries if the accumulated chunk exceeds the budget
(lines 110-121); the state is `(chunks, current_chunk)`. -/
def paraStep (M : Nat) (st : List (List Char) × List Char) (p : List Char) :
    List (List Char) × List Char :=
  let st1 := paraAccum M st p
  if st1.2.length > M then (splitSentences st1.2).foldl (sentStep M) (st1.1, [])
  else st1

/-- `split_text_into_chunks(text, max_chars)` from src/3_md_to_mp3.py
lines 90-126: split on the paragraph delimiter, greedily accumulate, re-split
oversized accumulations at sentence boundaries, and emit the stripped
remainder if non-empty. -/
def split_text_into_chunks (text : List Char) (max_chars : Nat) : List (List Char) :=
  let st := (split2 '\n' '\n' text).foldl (paraStep max_chars) ([], [])
  if strip st.2 ≠ [] then st.1 ++ [strip st.2] else st.1

/-- `pat` is an initial run of `s` (Python `s.startswith(pat)`). -/
def leadsWith : List Char → List Char → Bool
  | [], _ => true
  | _ :: _, [] => false
  | p :: ps, c :: cs => p = c && leadsWith ps cs

/-- `pat` occurs as a contiguous substring of `s` (Python `pat in s`). -/
def containsPat (pat : List Char) : List Char → Bool
  | [] => pat.isEmpty
  | c :: rest => leadsWith pat (c :: rest) || containsPat pat rest

/-- A chunk is a single atomic sentence for the segmenter: none of the
sentence delimiters `". "`, `"! "`, `"? "` occurs in it, nor the auxiliary
split character `'|'`, so `splitSentences` cannot divide it further. -/
def atomicB (c : List Char) : Bool :=
  !containsPat ['.', ' '] c && !containsPat ['!', ' '] c &&
    !containsPat ['?', ' '] c && !containsPat ['|'] c

/-- Characters that the segmenter is allowed to drop under the amended
round-trip statement: whitespace (boundary trimming / delimiters) and the
literal `'|'` character (consumed by the sentence re-split). `keepF`
retains everything else. -/
def keepCh (c : Char) : Bool := !pyIsSpace c && !(c = '|')

/-- The subsequence of characters the segmenter must preserve. -/
def keepF (s : List Char) : List Char := s.filter keepCh

/-- `line.strip().startswith('#')` — the heading test of
src/3_md_to_mp3.py lines 31 and 49. -/
def isHeading (line : List Char) : Bool :=
  match strip line with
  | [] => false
  | c :: _ => c = '#'

/-- One step of the loop of `split_markdown_by_headers`
(src/3_md_to_mp3.py lines 48-66); the state is
`(sections, current_title, current_content)`. -/
def sectStep (st : List (List Char × List Char) × List Char × List (List Char))
    (line : List Char) :
    List (List Char × List Char) × List Char × List (List Char) :=
  if isHeading line then
    let secs :=
      if st.2.2 ≠ [] then st.1 ++ [(st.2.1, joinSep ['\n'] st.2.2)] else st.1
    let raw := strip (line.dropWhile (fun c => c = '#'))
    (secs, (if raw ≠ [] then raw else "section".toList), [line])
  else
    (st.1, st.2.1, st.2.2 ++ [line])

/-- `split_markdown_by_headers(text)` from src/3_md_to_mp3.py lines 41-72. -/
def split_markdown_by_headers (text : List Char) : List (List Char × List Char) :=
  let st := (splitChar '\n' text).foldl sectStep ([], "preamble".toList, [])
  if st.2.2 ≠ [] then st.1 ++ [(st.2.1, joinSep ['\n'] st.2.2)] else st.1

/-- One line of `clean_text_for_speech` (src/3_md_to_mp3.py lines 29-36):
heading lines lose their `#` markers and surrounding whitespace, and are
dropped entirely when nothing remains; other lines pass through. -/
def cleanLine (line : List Char) : Option (List Char) :=
  if isHeading line then
    let cl := strip (line.dropWhile (fun c => c = '#'))
    if cl ≠ [] then some cl else none
  else some line

/-- `clean_text_for_speech(text)` from src/3_md_to_mp3.py lines 25-38. -/
def clean_text_for_speech (text : List Char) : List Char :=
  joinSep ['\n'] ((splitChar '\n' text).filterMap cleanLine)

/-! ### Chapter assembly (src/6_create_m4b.py) -/

/-- A chapter record as built by `create_m4b` (src/6_create_m4b.py
lines 108-112): dictionary keys `title`, `start`, `end`. -/
structure Chapter where
  title : List Char
  start : ℚ
  end_ : ℚ
deriving DecidableEq

/-- Default used only to state `List.getD` indexing; `start ≠ end_` so no
degenerate-chapter statement holds of it by accident. -/
def defaultChapter : Chapter := ⟨[], 0, 1⟩

/-- `get_audio_duration(file_path)` from src/6_create_m4b.py lines 28-42,
with ffprobe abstracted as a capability `probe` returning `none` exactly
when the probe or the float parse fails.  The second component records
whether the warning branch (`print` of the error before `return 0`) ran. -/
def get_audio_duration {α : Type} (probe : α → Option ℚ) (f : α) : ℚ × Bool :=
  match probe f with
  | some d => (d, false)
  | none => (0, true)

/-- `pathlib.Path(name).stem`: the name without its final suffix; a suffix
requires a dot at an index `i` with `0 < i < len - 1`. -/
def pathStem (s : List Char) : List Char :=
  let r := s.reverse.findIdx (fun c => c = '.')
  if r < s.length then
    let i := s.length - 1 - r
    if 0 < i ∧ i < s.length - 1 then s.take i else s
  else s

/-- The character class `[\s_-]` of the ordinal-stripping regex in
`clean_title` (src/6_create_m4b.py line 51). -/
def isOrdSep (c : Char) : Bool := pyIsSpace c || c = '_' || c = '-'

/-- `re.sub(r'^\d+[\s_-]+', '', name)`: remove a leading block of one or
more digits followed by one or more separators, if both are present. -/
def stripOrd (s : List Char) : List Char :=
  let ds := s.takeWhile Char.isDigit
  let rest := s.drop ds.length
  let seps := rest.takeWhile isOrdSep
  if ds ≠ [] ∧ seps ≠ [] then rest.drop seps.length else s

/-- `name.replace('_', ' ')` character map. -/
def underToSpace (c : Char) : Char := if c = '_' then ' ' else c

/-- `name.replace('-', ' ')` character map. -/
def dashToSpace (c : Char) : Char := if c = '-' then ' ' else c

/-- Python `str.title()` (letters only, as in the source's inputs): a letter
is uppercased when the previous character is not a letter, lowercased
otherwise; the flag carries whether the previous character was a letter. -/
def pyTitleAux : Bool → List Char → List Char
  | _, [] => []
  | prev, c :: cs =>
    (if c.isAlpha then (if prev then c.toLower else c.toUpper) else c)
      :: pyTitleAux c.isAlpha cs

/-- `clean_title(filename)` from src/6_create_m4b.py lines 44-57. -/
def clean_title (filename : List Char) : List Char :=
  let name := pathStem filename
  let name := stripOrd name
  let name := (name.map underToSpace).map dashToSpace
  pyTitleAux false name

/-- The chapter-building loop of `create_m4b` (src/6_create_m4b.py
lines 99-115): a running cursor `cur` starts at 0, each file contributes a
chapter `[cur, cur + duration]` titled by `clean_title`, and the cursor
advances by the file's probed duration. -/
def buildChapters {α : Type} (probe : α → Option ℚ) (name : α → List Char) :
    List α → ℚ → List Chapter
  | [], _ => []
  | f :: fs, cur =>
    let d := (get_audio_duration probe f).1
    { title := clean_title (name f), start := cur, end_ := cur + d }
      :: buildChapters probe name fs (cur + d)

/-- A successful probe of a pre-measured segment `(name, duration)`:
used to instantiate `buildChapters` on plain duration lists. -/
def segProbe : List Char × ℚ → Option ℚ := fun fd => some fd.2

/-- Filesystem effects of `create_m4b`, abstracted by file name. -/
inductive FsEvent
  | write : List Char → FsEvent
  | remove : List Char → FsEvent
deriving DecidableEq

/-- `create_m4b(input_files, output_file, ...)` from src/6_create_m4b.py
lines 83-170, with ffprobe abstracted as `probe` and the external ffmpeg
concat/encode run abstracted as the boolean `ffmpegOk`.  Returns the
ordered filesystem events, the chapter list it computed, and the success
flag.  An empty input list returns `False` before any file is touched. -/
def create_m4b {α : Type} (probe : α → Option ℚ) (name : α → List Char)
    (ffmpegOk : Bool) (input_files : List α) (output_file : List Char) :
    List FsEvent × List Chapter × Bool :=
  if input_files.isEmpty then ([], [], false)
  else
    let chapters := buildChapters probe name input_files 0
    (FsEvent.write "concat_list.txt".toList ::
       FsEvent.write "metadata.txt".toList ::
       ((if ffmpegOk then [FsEvent.write output_file] else []) ++
         [FsEvent.remove "concat_list.txt".toList,
          FsEvent.remove "metadata.txt".toList]),
     chapters, ffmpegOk)

/-! ### The document loop of `main` (src/3_md_to_mp3.py lines 376-463) -/

/-- Python regex `\w` (ASCII part). -/
def pyWordChar (c : Char) : Bool := c.isAlphanum || c = '_'

/-- The character class `[-\s]` of line 397. -/
def isDashSpace (c : Char) : Bool := pyIsSpace c || c = '-'

/-- `re.sub(r'[-\s]+', '_', s)`: each maximal run of dashes/whitespace
becomes a single underscore; the flag carries whether the previous
character was in the class. -/
def collapseSepsAux : Bool → List Char → List Char
  | _, [] => []
  | prev, c :: cs =>
    if isDashSpace c then
      (if prev then collapseSepsAux true cs else '_' :: collapseSepsAux true cs)
    else c :: collapseSepsAux false cs

/-- Title cleaning of src/3_md_to_mp3.py lines 396-397:
`re.sub(r'[^\w\s-]', '', title).strip()` then `re.sub(r'[-\s]+', '_', ...)`. -/
def sanitizeTitle (t : List Char) : List Char :=
  collapseSepsAux false
    (strip (t.filter (fun c => pyWordChar c || pyIsSpace c || c = '-')))

/-- `safe_title.lower().endswith('md')` (line 401). -/
def lowerEndsMd (s : List Char) : Bool :=
  match s.reverse with
  | d :: m :: _ => m.toLower = 'm' && d.toLower = 'd'
  | _ => false

/-- `safe_title.rstrip('_-')` (line 405). -/
def rstripUS (s : List Char) : List Char :=
  (s.reverse.dropWhile (fun c => c = '_' || c = '-')).reverse

/-- The per-section output identifier of `main`
(src/3_md_to_mp3.py lines 386-405): preamble sections use the input stem
(plus `_preamble` when there are several sections), others the sanitized
title; a trailing `md` is dropped, then trailing separators. -/
def safeTitleFor (stem : List Char) (nSections : Nat) (title : List Char) :
    List Char :=
  let s :=
    if title = "preamble".toList then
      (if nSections = 1 then stem else stem ++ "_preamble".toList)
    else sanitizeTitle title
  let s := if lowerEndsMd s then s.take (s.length - 2) else s
  rstripUS s

/-- Decimal rendering of a chunk index for the chunk file name. -/
def natToChars (n : Nat) : List Char := (Nat.repr n).toList

/-- `f"{output_base}_chunk_{idx}.{file_extension}"` (line 435). -/
def chunkFileName (base : List Char) (idx : Nat) (ext : List Char) : List Char :=
  base ++ "_chunk_".toList ++ natToChars idx ++ '.' :: ext

/-- The chunk loop of `main` (src/3_md_to_mp3.py lines 430-457), with the
TTS provider abstracted as `synth : chunk text → Bool`.  A chunk writes its
output file on success; on failure the program exits (`sys.exit(1)`), so no
further chunk is attempted.  Returns the files written in order and whether
all chunks succeeded. -/
def synthChunks (synth : List Char → Bool) (outName base ext : List Char)
    (total : Nat) : Nat → List (List Char) → List (List Char) × Bool
  | _, [] => ([], true)
  | idx, c :: cs =>
    let outFile := if total > 1 then chunkFileName base idx ext else outName
    if synth c then
      let r := synthChunks synth outName base ext total (idx + 1) cs
      (outFile :: r.1, r.2)
    else ([], false)

/-- Processing of one section inside the loop of `main`
(src/3_md_to_mp3.py lines 383-463): skip when the output file already
exists, skip empty cleaned content, otherwise synthesize every chunk and
merge (merging deletes the chunk files and writes the section file).
Returns the new disk contents, the section's output identifier (`none`
when skipped or failed), and whether the run continues (`False` models
`sys.exit(1)` on a failed chunk). -/
def processSection (synth : List Char → Bool) (stem ext : List Char)
    (nSections maxc : Nat) (disk : List (List Char))
    (sec : List Char × List Char) :
    List (List Char) × Option (List Char) × Bool :=
  let safe := safeTitleFor stem nSections sec.1
  let outName := safe ++ '.' :: ext
  if outName ∈ disk then (disk, none, true)
  else if strip (clean_text_for_speech sec.2) = [] then (disk, none, true)
  else
    let chunks := split_text_into_chunks (clean_text_for_speech sec.2) maxc
    let r := synthChunks synth outName safe ext chunks.length 0 chunks
    if r.2 then
      if r.1.length > 1 then
        (((disk ++ r.1) ++ [outName]).filter (fun f => decide (f ∉ r.1)),
         some outName, true)
      else (disk ++ r.1, some outName, true)
    else (disk ++ r.1, none, false)

/-- The section loop of `main`: sections processed in order; a failed
section stops the whole run (its entry is the last one). -/
def runSectionsAux (synth : List Char → Bool) (stem ext : List Char)
    (nSections maxc : Nat) :
    List (List Char) → List (List Char × List Char) →
      List (List Char) × List (Option (List Char))
  | disk, [] => (disk, [])
  | disk, sec :: rest =>
    let r := processSection synth stem ext nSections maxc disk sec
    if r.2.2 then
      let rr := runSectionsAux synth stem ext nSections maxc r.1 rest
      (rr.1, r.2.1 :: rr.2)
    else (r.1, [r.2.1])

/-- The section loop of `main` started on a fresh output directory; the
section count fixed before the loop (line 381) feeds the preamble naming. -/
def runMain (synth : List Char → Bool) (stem ext : List Char) (maxc : Nat)
    (sections : List (List Char × List Char)) :
    List (List Char) × List (Option (List Char)) :=
  runSectionsAux synth stem ext sections.length maxc [] sections

/-- `main` from reading the markdown file to the section loop
(src/3_md_to_mp3.py lines 376-463): split the document by headers, then
run the section loop. -/
def runDocument (synth : List Char → Bool) (stem ext : List Char)
    (maxc : Nat) (content : List Char) :
    List (List Char) × List (Option (List Char)) :=
  runMain synth stem ext maxc (split_markdown_by_headers content)

/-! ## Lemmas: splitting and joining -/

theorem splitChar_ne_nil (sep : Char) (s : List Char) : splitChar sep s ≠ [] := by
  induction s using splitChar.induct sep with
  | case1 => simp [splitChar]
  | case2 rest ih => simp [splitChar]
  | case3 c rest hc hr ih => exact absurd hr ih
  | case4 c rest hc h t hr ih => simp [splitChar, hc, hr]

theorem splitChar_cons_self (sep : Char) (rest : List Char) :
    splitChar sep (sep :: rest) = [] :: splitChar sep rest := by
  simp [splitChar]

theorem joinSep_splitChar (sep : Char) (s : List Char) :
    joinSep [sep] (splitChar sep s) = s := by
  induction s using splitChar.induct sep with
  | case1 => rfl
  | case2 rest ih =>
    cases hr : splitChar sep rest with
    | nil => exact absurd hr (splitChar_ne_nil sep rest)
    | cons h t =>
      rw [hr] at ih
      simp only [splitChar, if_pos rfl, hr, joinSep]
      simpa using ih
  | case3 c rest hc hr ih => exact absurd hr (splitChar_ne_nil sep rest)
  | case4 c rest hc h t hr ih =>
    rw [hr] at ih
    simp only [splitChar, if_neg hc, hr]
    cases t with
    | nil => simpa [joinSep] using ih
    | cons y t' =>
      simp only [joinSep] at ih ⊢
      simpa using ih

theorem split2_ne_nil (a b : Char) (s : List Char) : split2 a b s ≠ [] := by
  induction s using split2.induct a b with
  | case1 => simp [split2]
  | case2 c => simp [split2]
  | case3 c d rest h ih => simp [split2, h]
  | case4 c d rest h hr ih => exact absurd hr ih
  | case5 c d rest h x t hr ih => simp [split2, h, hr]

theorem joinSep_split2 (a b : Char) (s : List Char) :
    joinSep [a, b] (split2 a b s) = s := by
  induction s using split2.induct a b with
  | case1 => rfl
  | case2 c => rfl
  | case3 c d rest h ih =>
    cases hr : split2 a b rest with
    | nil => exact absurd hr (split2_ne_nil a b rest)
    | cons x t =>
      rw [hr] at ih
      simp only [split2, if_pos h, hr, joinSep]
      simp [h.1, h.2, ih]
  | case4 c d rest h hr ih => exact absurd hr (split2_ne_nil a b (d :: rest))
  | case5 c d rest h x t hr ih =>
    rw [hr] at ih
    simp only [split2, if_neg h, hr]
    cases t with
    | nil => simpa [joinSep] using ih
    | cons y t' =>
      simp only [joinSep] at ih ⊢
      simpa using ih

theorem mem_joinSep_decomp (sep : List Char) :
    ∀ (l : List (List Char)) (p : List Char), p ∈ l →
      ∃ u v, joinSep sep l = u ++ p ++ v
  | [], p, hp => absurd hp (List.not_mem_nil p)
  | [x], p, hp => by
    simp only [List.mem_singleton] at hp
    subst hp
    exact ⟨[], [], by simp [joinSep]⟩
  | x :: y :: rest, p, hp => by
    rcases List.mem_cons.mp hp with hp | hp
    · subst hp
      exact ⟨[], sep ++ joinSep sep (y :: rest), by simp [joinSep]⟩
    · obtain ⟨u, v, huv⟩ := mem_joinSep_decomp sep (y :: rest) p hp
      exact ⟨x ++ sep ++ u, v, by simp [joinSep, huv]⟩

/-! ## Lemmas: substring occurrence -/

theorem leadsWith_append {pat s : List Char} (t : List Char)
    (h : leadsWith pat s = true) : leadsWith pat (s ++ t) = true := by
  induction pat generalizing s with
  | nil => rfl
  | cons p ps ih =>
    cases s with
    | nil => simp [leadsWith] at h
    | cons c cs =>
      simp only [leadsWith, Bool.and_eq_true, decide_eq_true_eq] at h
      simp only [List.cons_append, leadsWith, Bool.and_eq_true, decide_eq_true_eq]
      exact ⟨h.1, ih h.2⟩

theorem containsPat_cons {pat : List Char} {c : Char} {rest : List Char}
    (h : containsPat pat rest = true) : containsPat pat (c :: rest) = true := by
  simp [containsPat, h]

theorem containsPat_append_left {pat t : List Char} (u : List Char)
    (h : containsPat pat t = true) : containsPat pat (u ++ t) = true := by
  induction u with
  | nil => exact h
  | cons c cs ih => exact containsPat_cons ih

theorem containsPat_append_right {pat t : List Char} (v : List Char)
    (h : containsPat pat t = true) : containsPat pat (t ++ v) = true := by
  induction t with
  | nil =>
    have hp : pat = [] := by
      cases pat with
      | nil => rfl
      | cons p ps => simp [containsPat] at h
    subst hp
    cases v with
    | nil => rfl
    | cons c cs => simp [containsPat, leadsWith]
  | cons c cs ih =>
    simp only [containsPat, Bool.or_eq_true] at h
    rcases h with h | h
    · simpa [containsPat] using Or.inl (leadsWith_append v h)
    · exact containsPat_cons (ih h)

theorem containsPat_of_decomp {pat s t u v : List Char} (hs : s = u ++ t ++ v)
    (h : containsPat pat t = true) : containsPat pat s = true := by
  subst hs
  rw [List.append_assoc]
  exact containsPat_append_left u (containsPat_append_right v h)

/-! ## Lemmas: strip -/

theorem rstrip_decomp (t : List Char) : ∃ v, t = rstripWS t ++ v := by
  refine ⟨(t.reverse.takeWhile pyIsSpace).reverse, ?_⟩
  unfold rstripWS
  rw [← List.reverse_append, List.takeWhile_append_dropWhile, List.reverse_reverse]

theorem strip_decomp (s : List Char) : ∃ u v, s = u ++ strip s ++ v := by
  obtain ⟨v, hv⟩ := rstrip_decomp (lstrip s)
  refine ⟨s.takeWhile pyIsSpace, v, ?_⟩
  conv_lhs => rw [← List.takeWhile_append_dropWhile (p := pyIsSpace) (l := s)]
  have : s.dropWhile pyIsSpace = strip s ++ v := hv
  rw [this, List.append_assoc]

theorem strip_length_le (s : List Char) : (strip s).length ≤ s.length := by
  obtain ⟨u, v, h⟩ := strip_decomp s
  conv_rhs => rw [h]
  simp only [List.length_append]
  omega

theorem containsPat_strip {pat s : List Char}
    (h : containsPat pat (strip s) = true) : containsPat pat s = true := by
  obtain ⟨u, v, hs⟩ := strip_decomp s
  exact containsPat_of_decomp hs h

theorem containsPat_strip_false {pat s : List Char}
    (h : containsPat pat s = false) : containsPat pat (strip s) = false := by
  cases hx : containsPat pat (strip s) with
  | false => rfl
  | true => rw [containsPat_strip hx] at h; cases h

theorem atomicB_strip {s : List Char} (h : atomicB s = true) :
    atomicB (strip s) = true := by
  simp only [atomicB, Bool.and_eq_true, Bool.not_eq_true'] at h ⊢
  obtain ⟨⟨⟨h1, h2⟩, h3⟩, h4⟩ := h
  exact ⟨⟨⟨containsPat_strip_false h1, containsPat_strip_false h2⟩,
    containsPat_strip_false h3⟩, containsPat_strip_false h4⟩

/-! ## Lemmas: preserved content (`keepF`) -/

theorem keepF_append (a b : List Char) : keepF (a ++ b) = keepF a ++ keepF b :=
  List.filter_append ..

theorem keepF_dropWhileWS (l : List Char) :
    keepF (l.dropWhile pyIsSpace) = keepF l := by
  induction l with
  | nil => rfl
  | cons c cs ih =>
    cases h : pyIsSpace c with
    | true =>
      rw [List.dropWhile_cons_of_pos h, ih]
      simp [keepF, List.filter_cons, keepCh, h]
    | false => rw [List.dropWhile_cons_of_neg (by simp [h])]

theorem keepF_reverse (l : List Char) : keepF l.reverse = (keepF l).reverse :=
  List.filter_reverse _ _

theorem keepF_strip (s : List Char) : keepF (strip s) = keepF s := by
  unfold strip rstripWS lstrip
  rw [keepF_reverse, keepF_dropWhileWS, keepF_reverse, List.reverse_reverse,
    keepF_dropWhileWS]

theorem keepF_eq_nil_of_strip {s : List Char} (h : strip s = []) :
    keepF s = [] := by
  rw [← keepF_strip, h]
  rfl

theorem keepF_joinSep (sep : List Char) (hsep : keepF sep = []) :
    ∀ l : List (List Char), keepF (joinSep sep l) = (l.map keepF).flatten
  | [] => rfl
  | [x] => by simp [joinSep]
  | x :: y :: rest => by
    simp only [joinSep, keepF_append, hsep, List.map_cons, List.flatten_cons,
      keepF_joinSep sep hsep (y :: rest)]
    simp

theorem keepF_replace2 (a : Char) :
    ∀ s, keepF (replace2 a ' ' a '|' s) = keepF s := by
  intro s
  induction s using replace2.induct a ' ' a '|' with
  | case1 => rfl
  | case2 c => rfl
  | case3 c d rest h ih =>
    simp only [replace2, if_pos h]
    simp only [keepF, List.filter_cons] at ih ⊢
    have h1 : keepCh '|' = false := rfl
    have h2 : keepCh ' ' = false := rfl
    simp [h1, h2, ih, h.1, h.2]
  | case4 c d rest h ih =>
    simp only [replace2, if_neg h]
    simp only [keepF, List.filter_cons] at ih ⊢
    simp [ih]

theorem keepF_splitSentences (s : List Char) :
    ((splitSentences s).map keepF).flatten = keepF s := by
  unfold splitSentences
  rw [← keepF_joinSep ['|'] rfl, joinSep_splitChar, keepF_replace2,
    keepF_replace2, keepF_replace2]

/-! ## Lemmas: the sentence re-split produces atomic pieces -/

theorem replace2_head (q d : Char) (rest : List Char) :
    (replace2 q ' ' q '|' (d :: rest)).head? = some q ∨
      (replace2 q ' ' q '|' (d :: rest)).head? = some d := by
  cases rest with
  | nil => right; rfl
  | cons e rest' =>
    by_cases h : d = q ∧ e = ' '
    · left; simp [replace2, if_pos h]
    · right; simp [replace2, if_neg h]

theorem replace2_self_free {q : Char} (hq : q ≠ ' ') (hq2 : q ≠ '|') :
    ∀ s, containsPat [q, ' '] (replace2 q ' ' q '|' s) = false := by
  intro s
  induction s using replace2.induct q ' ' q '|' with
  | case1 => rfl
  | case2 c => simp [replace2, containsPat, leadsWith]
  | case3 c d rest h ih =>
    simp only [replace2, if_pos h]
    simp [containsPat, leadsWith, ih, hq2]
  | case4 c d rest h ih =>
    simp only [replace2, if_neg h]
    simp only [containsPat, Bool.or_eq_false_iff, ih, and_true]
    simp only [leadsWith, Bool.and_eq_false_iff, decide_eq_false_iff_not]
    by_cases hcq : q = c
    · right
      cases hE : replace2 q ' ' q '|' (d :: rest) with
      | nil => simp [leadsWith]
      | cons x xs =>
        have hR := replace2_head q d rest
        rw [hE] at hR
        simp only [List.head?_cons, Option.some.injEq] at hR
        have hd : d ≠ ' ' := fun hd => h ⟨hcq.symm, hd⟩
        have hx : x ≠ ' ' := by
          rcases hR with hR | hR
          · rw [hR]; exact hq
          · rw [hR]; exact hd
        simp [leadsWith, Ne.symm hx]
    · left; exact hcq

theorem replace2_other_free {p q : Char} (hp : p ≠ '|') (hq : q ≠ ' ') :
    ∀ s, containsPat [p, ' '] s = false →
      containsPat [p, ' '] (replace2 q ' ' q '|' s) = false := by
  intro s
  induction s using replace2.induct q ' ' q '|' with
  | case1 => exact fun h => h
  | case2 c => exact fun h => h
  | case3 c d rest h ih =>
    intro hs
    simp only [containsPat, Bool.or_eq_false_iff] at hs
    have hrest : containsPat [p, ' '] rest = false := hs.2.2
    simp only [replace2, if_pos h]
    simp only [containsPat, Bool.or_eq_false_iff, ih hrest, and_true]
    constructor
    · simp [leadsWith]
    · simp [leadsWith, hp]
  | case4 c d rest h ih =>
    intro hs
    simp only [containsPat, Bool.or_eq_false_iff] at hs
    obtain ⟨hlw, hs2⟩ := hs
    have hrest : containsPat [p, ' '] (d :: rest) = false := by
      simp only [containsPat, Bool.or_eq_false_iff]
      exact hs2
    simp only [replace2, if_neg h]
    simp only [containsPat, Bool.or_eq_false_iff, ih hrest, and_true]
    simp only [leadsWith, Bool.and_eq_false_iff, decide_eq_false_iff_not]
    by_cases hpc : p = c
    · right
      cases hE : replace2 q ' ' q '|' (d :: rest) with
      | nil => simp [leadsWith]
      | cons x xs =>
        have hR := replace2_head q d rest
        rw [hE] at hR
        simp only [List.head?_cons, Option.some.injEq] at hR
        have hd : d ≠ ' ' := by
          intro hd
          rw [hpc, hd] at hlw
          simp [leadsWith] at hlw
        have hx : x ≠ ' ' := by
          rcases hR with hR | hR
          · rw [hR]; exact hq
          · rw [hR]; exact hd
        simp [leadsWith, Ne.symm hx]
    · left; exact hpc

theorem splitChar_pieces_free (sep : Char) (s : List Char) :
    ∀ p ∈ splitChar sep s, containsPat [sep] p = false := by
  induction s using splitChar.induct sep with
  | case1 =>
    intro p hp
    simp only [splitChar, List.mem_singleton] at hp
    subst hp
    rfl
  | case2 rest ih =>
    intro p hp
    rw [splitChar_cons_self] at hp
    rcases List.mem_cons.mp hp with hp | hp
    · subst hp; rfl
    · exact ih p hp
  | case3 c rest hc hr ih => exact absurd hr (splitChar_ne_nil sep rest)
  | case4 c rest hc h t hr ih =>
    intro p hp
    simp only [splitChar, if_neg hc, hr, List.mem_cons] at hp
    rcases hp with hp | hp
    · subst hp
      have hh : containsPat [sep] h = false :=
        ih h (by rw [hr]; exact List.mem_cons_self _ _)
      simp [containsPat, leadsWith, hh, Ne.symm hc]
    · exact ih p (by rw [hr]; exact List.mem_cons_of_mem _ hp)

theorem splitSentences_atomic (s : List Char) :
    ∀ p ∈ splitSentences s, atomicB p = true := by
  intro p hp
  unfold splitSentences at hp
  have hbar : containsPat ['|'] p = false := splitChar_pieces_free '|' _ p hp
  obtain ⟨u, v, huv⟩ :
      ∃ u v, replace2 '?' ' ' '?' '|'
          (replace2 '!' ' ' '!' '|' (replace2 '.' ' ' '.' '|' s)) =
        u ++ p ++ v := by
    obtain ⟨u, v, h⟩ := mem_joinSep_decomp ['|'] _ p hp
    exact ⟨u, v, by rw [← joinSep_splitChar '|'
      (replace2 '?' ' ' '?' '|'
        (replace2 '!' ' ' '!' '|' (replace2 '.' ' ' '.' '|' s))), h]⟩
  have hdot : containsPat ['.', ' ']
      (replace2 '?' ' ' '?' '|'
        (replace2 '!' ' ' '!' '|' (replace2 '.' ' ' '.' '|' s))) = false := by
    apply replace2_other_free (by decide) (by decide)
    apply replace2_other_free (by decide) (by decide)
    exact replace2_self_free (by decide) (by decide) s
  have hbang : containsPat ['!', ' ']
      (replace2 '?' ' ' '?' '|'
        (replace2 '!' ' ' '!' '|' (replace2 '.' ' ' '.' '|' s))) = false := by
    apply replace2_other_free (by decide) (by decide)
    exact replace2_self_free (by decide) (by decide) _
  have hques : containsPat ['?', ' ']
      (replace2 '?' ' ' '?' '|'
        (replace2 '!' ' ' '!' '|' (replace2 '.' ' ' '.' '|' s))) = false :=
    replace2_self_free (by decide) (by decide) _
  have inh : ∀ pat, containsPat pat
      (replace2 '?' ' ' '?' '|'
        (replace2 '!' ' ' '!' '|' (replace2 '.' ' ' '.' '|' s))) = false →
      containsPat pat p = false := by
    intro pat hfree
    cases hx : containsPat pat p with
    | false => rfl
    | true => rw [containsPat_of_decomp huv hx] at hfree; cases hfree
  simp [atomicB, inh _ hdot, inh _ hbang, inh _ hques, hbar]

/-! ## Lemmas: budget invariant of the segmenter (towards C2) -/

theorem sentFold_inv (M : Nat) :
    ∀ (ss : List (List Char)) (st : List (List Char) × List Char),
      (∀ s ∈ ss, atomicB s = true) →
      (∀ c ∈ st.1, c.length ≤ M ∨ atomicB c = true) →
      (st.2.length ≤ M ∨ atomicB st.2 = true) →
      (∀ c ∈ (ss.foldl (sentStep M) st).1, c.length ≤ M ∨ atomicB c = true) ∧
        ((ss.foldl (sentStep M) st).2.length ≤ M ∨
          atomicB (ss.foldl (sentStep M) st).2 = true)
  | [], st, _, h1, h2 => ⟨h1, h2⟩
  | s :: ss, st, hs, h1, h2 => by
    rw [List.foldl_cons]
    refine sentFold_inv M ss (sentStep M st s)
      (fun x hx => hs x (List.mem_cons_of_mem _ hx)) ?_ ?_
    · unfold sentStep
      split
      · intro c hc
        rcases List.mem_append.mp hc with hc | hc
        · exact h1 c hc
        · rw [List.mem_singleton.mp hc]
          rcases h2 with h2 | h2
          · exact Or.inl (le_trans (strip_length_le _) h2)
          · exact Or.inr (atomicB_strip h2)
      · exact h1
    · unfold sentStep
      split
      · exact Or.inr (hs s (List.mem_cons_self _ _))
      · rename_i hcond
        by_cases hnil : st.2 = []
        · simp only [hnil, List.nil_append]
          exact Or.inr (hs s (List.mem_cons_self _ _))
        · have hle : ¬ st.2.length + s.length > M := fun hgt => hcond ⟨hnil, hgt⟩
          refine Or.inl ?_
          simp only [List.length_append]
          omega

theorem paraAccum_inv (M : Nat) (st : List (List Char) × List Char)
    (p : List Char)
    (h1 : ∀ c ∈ st.1, c.length ≤ M ∨ atomicB c = true)
    (h2 : st.2.length ≤ M ∨ atomicB st.2 = true) :
    ∀ c ∈ (paraAccum M st p).1, c.length ≤ M ∨ atomicB c = true := by
  unfold paraAccum
  split
  · intro c hc
    rcases List.mem_append.mp hc with hc | hc
    · exact h1 c hc
    · rw [List.mem_singleton.mp hc]
      rcases h2 with h2 | h2
      · exact Or.inl (le_trans (strip_length_le _) h2)
      · exact Or.inr (atomicB_strip h2)
  · split
    · exact h1
    · exact h1

theorem paraStep_inv (M : Nat) (st : List (List Char) × List Char)
    (p : List Char)
    (h1 : ∀ c ∈ st.1, c.length ≤ M ∨ atomicB c = true)
    (h2 : st.2.length ≤ M ∨ atomicB st.2 = true) :
    (∀ c ∈ (paraStep M st p).1, c.length ≤ M ∨ atomicB c = true) ∧
      ((paraStep M st p).2.length ≤ M ∨ atomicB (paraStep M st p).2 = true) := by
  have hacc := paraAccum_inv M st p h1 h2
  simp only [paraStep]
  split
  · exact sentFold_inv M (splitSentences (paraAccum M st p).2)
      ((paraAccum M st p).1, [])
      (splitSentences_atomic _) hacc (Or.inl (by simp))
  · rename_i hle
    exact ⟨hacc, Or.inl (by omega)⟩

theorem paraFold_inv (M : Nat) :
    ∀ (ps : List (List Char)) (st : List (List Char) × List Char),
      (∀ c ∈ st.1, c.length ≤ M ∨ atomicB c = true) →
      (st.2.length ≤ M ∨ atomicB st.2 = true) →
      (∀ c ∈ (ps.foldl (paraStep M) st).1, c.length ≤ M ∨ atomicB c = true) ∧
        ((ps.foldl (paraStep M) st).2.length ≤ M ∨
          atomicB (ps.foldl (paraStep M) st).2 = true)
  | [], st, h1, h2 => ⟨h1, h2⟩
  | p :: ps, st, h1, h2 => by
    rw [List.foldl_cons]
    have hstep := paraStep_inv M st p h1 h2
    exact paraFold_inv M ps (paraStep M st p) hstep.1 hstep.2

/-! ## Lemmas: content accounting of the segmenter (towards C1) -/

theorem sentStep_keep (M : Nat) (st : List (List Char) × List Char)
    (s : List Char) :
    ((sentStep M st s).1.map keepF).flatten ++ keepF (sentStep M st s).2 =
      ((st.1.map keepF).flatten ++ keepF st.2) ++ keepF s := by
  unfold sentStep
  split
  · simp [keepF_strip, List.append_assoc]
  · simp [keepF_append, List.append_assoc]

theorem sentFold_keep (M : Nat) :
    ∀ (ss : List (List Char)) (st : List (List Char) × List Char),
      ((ss.foldl (sentStep M) st).1.map keepF).flatten ++
          keepF (ss.foldl (sentStep M) st).2 =
        ((st.1.map keepF).flatten ++ keepF st.2) ++ (ss.map keepF).flatten
  | [], st => by simp
  | s :: ss, st => by
    rw [List.foldl_cons, sentFold_keep M ss (sentStep M st s), sentStep_keep]
    simp [List.append_assoc]

theorem paraAccum_keep (M : Nat) (st : List (List Char) × List Char)
    (p : List Char) :
    ((paraAccum M st p).1.map keepF).flatten ++ keepF (paraAccum M st p).2 =
      ((st.1.map keepF).flatten ++ keepF st.2) ++ keepF p := by
  unfold paraAccum
  split
  · simp [keepF_strip, List.append_assoc]
  · split
    · rw [keepF_append]
      have hnn : keepF ('\n' :: '\n' :: p) = keepF p := rfl
      rw [hnn, List.append_assoc]
    · rename_i h1 h2
      have hnil : st.2 = [] := by
        by_cases hx : st.2 = []
        · exact hx
        · exact absurd hx h2
      simp [hnil, keepF, List.append_assoc]

theorem paraStep_keep (M : Nat) (st : List (List Char) × List Char)
    (p : List Char) :
    ((paraStep M st p).1.map keepF).flatten ++ keepF (paraStep M st p).2 =
      ((st.1.map keepF).flatten ++ keepF st.2) ++ keepF p := by
  simp only [paraStep]
  split
  · rw [sentFold_keep, keepF_splitSentences]
    simp only [keepF, List.filter_nil, List.append_nil]
    exact paraAccum_keep M st p
  · exact paraAccum_keep M st p

theorem paraFold_keep (M : Nat) :
    ∀ (ps : List (List Char)) (st : List (List Char) × List Char),
      ((ps.foldl (paraStep M) st).1.map keepF).flatten ++
          keepF (ps.foldl (paraStep M) st).2 =
        ((st.1.map keepF).flatten ++ keepF st.2) ++ (ps.map keepF).flatten
  | [], st => by simp
  | p :: ps, st => by
    rw [List.foldl_cons, paraFold_keep M ps (paraStep M st p), paraStep_keep]
    simp [List.append_assoc]

theorem keepF_nil : keepF [] = [] := rfl

/-! ## Claim C2 -/

/-- C2: for every input text and budget `M > 0`, every chunk emitted by
`split_text_into_chunks` either fits the budget (`length ≤ M`) or is a
single atomic sentence (no sentence delimiter `". "`, `"! "`, `"? "` and no
`'|'` occurs in it, so the sentence re-split cannot divide it); oversized
atomic sentences are emitted whole as their own chunk — never truncated and
never an error. -/
theorem split_text_into_chunks_budget (text : List Char) (M : Nat)
    (hM : 0 < M) :
    ∀ c ∈ split_text_into_chunks text M, c.length ≤ M ∨ atomicB c = true := by
  intro c hc
  have h := paraFold_inv M (split2 '\n' '\n' text) ([], [])
    (by intro x hx; cases hx) (Or.inl (by simp))
  simp only [split_text_into_chunks] at hc
  split at hc
  · rcases List.mem_append.mp hc with hc | hc
    · exact h.1 c hc
    · rw [List.mem_singleton.mp hc]
      rcases h.2 with h2 | h2
      · exact Or.inl (le_trans (strip_length_le _) h2)
      · exact Or.inr (atomicB_strip h2)
  · exact h.1 c hc

/-- C2 witness: the theorem applied at `text = "Hi. Bye"`, `M = 3`,
whose chunks are `["Hi.", "Bye"]`. -/
theorem split_text_into_chunks_budget_witness :
    0 < 3 ∧ ∀ c ∈ split_text_into_chunks "Hi. Bye".toList 3,
      c.length ≤ 3 ∨ atomicB c = true :=
  ⟨by decide, split_text_into_chunks_budget "Hi. Bye".toList 3 (by decide)⟩

/-! ## Claim C1 -/

/-- C1 is false as stated: at `text = "aaaaaaaaaaaa|b"` with
`max_chars = 12` the sentence re-split path drops the non-whitespace
character `'|'` (the code splits on `'|'` after substituting it for
sentence-delimiter spaces), so concatenating the chunks — however the
whitespace delimiters are reinserted between them and whatever per-chunk
leading/trailing whitespace is restored — cannot reproduce the original
text: already the subsequence of non-whitespace characters differs
(`"aaaaaaaaaaab"` against `"aaaaaaaaaaaa|b"`). -/
theorem split_text_into_chunks_roundtrip_cex :
    ((split_text_into_chunks "aaaaaaaaaaaa|b".toList 12).map
        (fun c => c.filter (fun ch => !pyIsSpace ch))).flatten ≠
      "aaaaaaaaaaaa|b".toList.filter (fun ch => !pyIsSpace ch) := by
  decide

/-- C1 (amended): for every input text and budget, the segmenter preserves,
in order and multiplicity, exactly the characters of the text other than
whitespace and the literal `'|'`: concatenating the chunks reproduces the
original up to whitespace dropped by delimiter stripping and per-chunk
trimming, and up to `'|'` characters plus sentence-delimiter spaces dropped
by the sentence re-split path. -/
theorem split_text_into_chunks_content (text : List Char) (M : Nat) :
    ((split_text_into_chunks text M).map keepF).flatten = keepF text := by
  have h := paraFold_keep M (split2 '\n' '\n' text) ([], [])
  simp only [List.map_nil, List.flatten_nil, List.nil_append, keepF_nil,
    List.append_nil] at h
  have htext : ((split2 '\n' '\n' text).map keepF).flatten = keepF text := by
    rw [← keepF_joinSep ['\n', '\n'] rfl, joinSep_split2]
  rw [htext] at h
  simp only [split_text_into_chunks]
  split
  · rename_i hne
    rw [List.map_append, List.flatten_append]
    simp only [List.map_cons, List.map_nil, List.flatten_cons,
      List.flatten_nil, List.append_nil]
    rw [keepF_strip]
    exact h
  · rename_i hnil
    have hz : strip ((split2 '\n' '\n' text).foldl (paraStep M) ([], [])).2
        = [] := by
      by_cases hx : strip ((split2 '\n' '\n' text).foldl (paraStep M)
        ([], [])).2 = []
      · exact hx
      · exact absurd hx hnil
    rw [← h, keepF_eq_nil_of_strip hz, List.append_nil]

/-! ## Lemmas: section splitter -/

theorem joinSep_append (sep : List Char) :
    ∀ (A B : List (List Char)), A ≠ [] → B ≠ [] →
      joinSep sep (A ++ B) = joinSep sep A ++ sep ++ joinSep sep B
  | [], _, hA, _ => absurd rfl hA
  | [x], B, _, hB => by
    cases B with
    | nil => exact absurd rfl hB
    | cons b bs => simp [joinSep]
  | x :: y :: A, B, _, hB => by
    have ih := joinSep_append sep (y :: A) B (by simp) hB
    have e1 : joinSep sep ((x :: y :: A) ++ B) =
        x ++ sep ++ joinSep sep ((y :: A) ++ B) := rfl
    have e2 : joinSep sep (x :: y :: A) = x ++ sep ++ joinSep sep (y :: A) := rfl
    rw [e1, ih, e2]
    simp [List.append_assoc]

theorem joinSep_flatten (sep : List Char) :
    ∀ (gs : List (List (List Char))), (∀ g ∈ gs, g ≠ []) →
      joinSep sep (gs.map (joinSep sep)) = joinSep sep gs.flatten
  | [], _ => rfl
  | [g], _ => by simp [joinSep]
  | g1 :: g2 :: gs, h => by
    have h1 : g1 ≠ [] := h g1 (by simp)
    have h2 : (g2 :: gs).flatten ≠ [] := by
      have hg2 : g2 ≠ [] := h g2 (by simp)
      simp only [List.flatten_cons]
      intro hx
      exact hg2 (List.append_eq_nil.mp hx).1
    have ih := joinSep_flatten sep (g2 :: gs)
      (fun g hg => h g (List.mem_cons_of_mem _ hg))
    have lhs : joinSep sep ((g1 :: g2 :: gs).map (joinSep sep)) =
        joinSep sep g1 ++ sep ++ joinSep sep ((g2 :: gs).map (joinSep sep)) := by
      simp [joinSep]
    rw [lhs, ih, show (g1 :: g2 :: gs).flatten = g1 ++ (g2 :: gs).flatten from
      rfl, joinSep_append sep g1 ((g2 :: gs).flatten) h1 h2]

theorem sectStep_content (st : List (List Char × List Char) × List Char ×
      List (List Char)) (line : List Char)
    (groups : List (List (List Char)))
    (h1 : st.1.map Prod.snd = groups.map (joinSep ['\n']))
    (h2 : ∀ g ∈ groups, g ≠ []) :
    ∃ groups' : List (List (List Char)),
      (sectStep st line).1.map Prod.snd = groups'.map (joinSep ['\n']) ∧
        (∀ g ∈ groups', g ≠ []) ∧
        groups'.flatten ++ (sectStep st line).2.2 =
          (groups.flatten ++ st.2.2) ++ [line] := by
  unfold sectStep
  split
  · by_cases hc : st.2.2 = []
    · refine ⟨groups, ?_, h2, ?_⟩
      · simp [hc, h1]
      · simp [hc]
    · refine ⟨groups ++ [st.2.2], ?_, ?_, ?_⟩
      · simp only [hc, ne_eq, not_false_eq_true, if_pos, List.map_append, h1]
        simp
      · intro g hg
        rcases List.mem_append.mp hg with hg | hg
        · exact h2 g hg
        · rw [List.mem_singleton.mp hg]; exact hc
      · simp [hc, List.append_assoc]
  · exact ⟨groups, by simpa using h1, h2, by simp [List.append_assoc]⟩

theorem sectFold_content :
    ∀ (ls : List (List Char))
      (st : List (List Char × List Char) × List Char × List (List Char))
      (groups : List (List (List Char))),
      st.1.map Prod.snd = groups.map (joinSep ['\n']) →
      (∀ g ∈ groups, g ≠ []) →
      ∃ groups' : List (List (List Char)),
        (ls.foldl sectStep st).1.map Prod.snd =
            groups'.map (joinSep ['\n']) ∧
          (∀ g ∈ groups', g ≠ []) ∧
          groups'.flatten ++ (ls.foldl sectStep st).2.2 =
            (groups.flatten ++ st.2.2) ++ ls
  | [], st, groups, h1, h2 => ⟨groups, h1, h2, by simp⟩
  | l :: ls, st, groups, h1, h2 => by
    rw [List.foldl_cons]
    obtain ⟨g1, hg1, hg2, hg3⟩ := sectStep_content st l groups h1 h2
    obtain ⟨g2, hh1, hh2, hh3⟩ := sectFold_content ls (sectStep st l) g1 hg1 hg2
    refine ⟨g2, hh1, hh2, ?_⟩
    rw [hh3, hg3]
    simp [List.append_assoc]

/-! ## Claim C6 -/

theorem sectFold_no_heading :
    ∀ (ls : List (List Char)) (acc : List (List Char)),
      (∀ l ∈ ls, isHeading l = false) →
      ls.foldl sectStep ([], "preamble".toList, acc) =
        ([], "preamble".toList, acc ++ ls)
  | [], acc, _ => by simp
  | l :: ls, acc, h => by
    rw [List.foldl_cons]
    have hl : isHeading l = false := h l (List.mem_cons_self _ _)
    have hstep : sectStep ([], "preamble".toList, acc) l =
        ([], "preamble".toList, acc ++ [l]) := by
      simp [sectStep, hl]
    rw [hstep, sectFold_no_heading ls (acc ++ [l])
      (fun x hx => h x (List.mem_cons_of_mem _ hx))]
    simp

/-- C6: for every input text with no heading line (no line whose stripped
form starts with `'#'`), `split_markdown_by_headers` returns exactly one
section titled `"preamble"` whose content is the entire input text. -/
theorem split_markdown_no_headers (text : List Char)
    (h : ∀ line ∈ splitChar '\n' text, isHeading line = false) :
    split_markdown_by_headers text = [("preamble".toList, text)] := by
  simp only [split_markdown_by_headers]
  rw [sectFold_no_heading (splitChar '\n' text) [] h]
  simp only [List.nil_append]
  rw [if_pos (splitChar_ne_nil '\n' text), joinSep_splitChar]

/-- C6 witness: the theorem applied at `text = "hello\nworld"`. -/
theorem split_markdown_no_headers_witness :
    (∀ line ∈ splitChar '\n' "hello\nworld".toList,
        isHeading line = false) ∧
      split_markdown_by_headers "hello\nworld".toList =
        [("preamble".toList, "hello\nworld".toList)] :=
  ⟨by decide, split_markdown_no_headers "hello\nworld".toList (by decide)⟩

/-! ## Claim C9 -/

theorem sections_join
    (st : List (List Char × List Char) × List Char × List (List Char))
    (groups : List (List (List Char)))
    (hmap : st.1.map Prod.snd = groups.map (joinSep ['\n']))
    (hne : ∀ g ∈ groups, g ≠ []) :
    joinSep ['\n']
        ((if st.2.2 ≠ [] then st.1 ++ [(st.2.1, joinSep ['\n'] st.2.2)]
          else st.1).map Prod.snd) =
      joinSep ['\n'] (groups.flatten ++ st.2.2) := by
  split
  · rename_i hcne
    rw [List.map_append, hmap]
    have hh : groups.map (joinSep ['\n']) ++
        ([(st.2.1, joinSep ['\n'] st.2.2)].map Prod.snd) =
        (groups ++ [st.2.2]).map (joinSep ['\n']) := by simp
    have hne2 : ∀ g ∈ groups ++ [st.2.2], g ≠ [] := by
      intro g hg
      rcases List.mem_append.mp hg with hg | hg
      · exact hne g hg
      · rw [List.mem_singleton.mp hg]; exact hcne
    rw [hh, joinSep_flatten ['\n'] (groups ++ [st.2.2]) hne2,
      List.flatten_append]
    simp
  · rename_i hm
    have hc : st.2.2 = [] := by
      by_cases hx : st.2.2 = []
      · exact hx
      · exact absurd hx hm
    rw [hmap, joinSep_flatten ['\n'] groups hne, hc, List.append_nil]

/-- C9: `split_markdown_by_headers` assigns every input line verbatim to
exactly one section, in source order, each heading line opening the section
that contains it: concatenating the content fields of all returned
sections, joined with the line delimiter, reproduces the input text
exactly. -/
theorem split_markdown_content (text : List Char) :
    joinSep ['\n']
        ((split_markdown_by_headers text).map Prod.snd) = text := by
  obtain ⟨groups, hmap, hne, hflat⟩ :=
    sectFold_content (splitChar '\n' text)
      ([], "preamble".toList, []) [] (by simp) (by intro g hg; cases hg)
  simp only [List.flatten_nil, List.nil_append, List.append_nil] at hflat
  simp only [split_markdown_by_headers]
  rw [sections_join _ groups hmap hne, hflat, joinSep_splitChar]

/-! ## Lemmas: chapter assembly -/

theorem buildChapters_length {α : Type} (probe : α → Option ℚ)
    (name : α → List Char) :
    ∀ (fs : List α) (cur : ℚ),
      (buildChapters probe name fs cur).length = fs.length
  | [], _ => rfl
  | f :: fs, cur => by
    simp [buildChapters, buildChapters_length probe name fs]

theorem buildChapters_head {α : Type} (probe : α → Option ℚ)
    (name : α → List Char) (f : α) (fs : List α) (cur : ℚ) :
    (buildChapters probe name (f :: fs) cur).head?.map Chapter.start =
      some cur := rfl

theorem buildChapters_last {α : Type} (probe : α → Option ℚ)
    (name : α → List Char) :
    ∀ (fs : List α) (cur : ℚ), fs ≠ [] →
      (buildChapters probe name fs cur).getLast?.map Chapter.end_ =
        some (cur + (fs.map (fun f => (get_audio_duration probe f).1)).sum)
  | [], _, h => absurd rfl h
  | [f], cur, _ => by simp [buildChapters]
  | f :: g :: fs, cur, _ => by
    have ih := buildChapters_last probe name (g :: fs)
      (cur + (get_audio_duration probe f).1) (by simp)
    have e : buildChapters probe name (f :: g :: fs) cur =
        { title := clean_title (name f), start := cur,
          end_ := cur + (get_audio_duration probe f).1 } ::
          buildChapters probe name (g :: fs)
            (cur + (get_audio_duration probe f).1) := rfl
    have e2 : buildChapters probe name (g :: fs)
        (cur + (get_audio_duration probe f).1) =
        { title := clean_title (name g),
          start := cur + (get_audio_duration probe f).1,
          end_ := cur + (get_audio_duration probe f).1 +
            (get_audio_duration probe g).1 } ::
          buildChapters probe name fs
            (cur + (get_audio_duration probe f).1 +
              (get_audio_duration probe g).1) := rfl
    rw [e, e2, List.getLast?_cons_cons, ← e2, ih]
    simp [List.sum_cons, add_assoc]

theorem buildChapters_adjacent {α : Type} (probe : α → Option ℚ)
    (name : α → List Char) :
    ∀ (fs : List α) (cur : ℚ) (i : Nat), i + 1 < fs.length →
      ((buildChapters probe name fs cur).getD i defaultChapter).end_ =
        ((buildChapters probe name fs cur).getD (i + 1)
          defaultChapter).start
  | [], _, i, h => by simp at h
  | [f], _, i, h => by simp at h
  | f :: g :: fs, cur, 0, _ => rfl
  | f :: g :: fs, cur, i + 1, h =>
    buildChapters_adjacent probe name (g :: fs)
      (cur + (get_audio_duration probe f).1) i
      (by simpa using Nat.lt_of_succ_lt_succ h)

/-! ## Claim C3 -/

/-- C3: for every ordered sequence of pre-measured audio segments with
non-negative durations, the chapter list built by `create_m4b`'s chapter
loop starts at 0, every adjacent pair is contiguous
(`chapters[i].end == chapters[i+1].start`), and the last chapter ends at
the sum of all durations. -/
theorem assemble_chapters_contiguous (files : List (List Char × ℚ))
    (hne : files ≠ []) (hpos : ∀ fd ∈ files, 0 ≤ fd.2) :
    (buildChapters segProbe Prod.fst files 0).head?.map Chapter.start =
        some 0 ∧
      (buildChapters segProbe Prod.fst files 0).getLast?.map Chapter.end_ =
        some (files.map Prod.snd).sum ∧
      ∀ i : Nat, i + 1 < (buildChapters segProbe Prod.fst files 0).length →
        ((buildChapters segProbe Prod.fst files 0).getD i
            defaultChapter).end_ =
          ((buildChapters segProbe Prod.fst files 0).getD (i + 1)
            defaultChapter).start := by
  refine ⟨?_, ?_, ?_⟩
  · cases files with
    | nil => exact absurd rfl hne
    | cons f fs => exact buildChapters_head segProbe Prod.fst f fs 0
  · rw [buildChapters_last segProbe Prod.fst files 0 hne]
    have hmap : files.map (fun f => (get_audio_duration segProbe f).1) =
        files.map Prod.snd :=
      List.map_congr_left (fun fd _ => rfl)
    rw [hmap, zero_add]
  · intro i hi
    rw [buildChapters_length] at hi
    exact buildChapters_adjacent segProbe Prod.fst files 0 i hi

/-- C3 witness: the theorem applied at two segments of durations 1 and 2. -/
theorem assemble_chapters_contiguous_witness :
    ([("a".toList, (1 : ℚ)), ("b".toList, (2 : ℚ))] ≠ []) ∧
      (∀ fd ∈ [("a".toList, (1 : ℚ)), ("b".toList, (2 : ℚ))], 0 ≤ fd.2) ∧
      ((buildChapters segProbe Prod.fst
            [("a".toList, (1 : ℚ)), ("b".toList, (2 : ℚ))] 0).head?.map
            Chapter.start = some 0 ∧
        (buildChapters segProbe Prod.fst
            [("a".toList, (1 : ℚ)), ("b".toList, (2 : ℚ))]
            0).getLast?.map Chapter.end_ =
          some ([("a".toList, (1 : ℚ)), ("b".toList, (2 : ℚ))].map
            Prod.snd).sum ∧
        ∀ i : Nat,
          i + 1 < (buildChapters segProbe Prod.fst
            [("a".toList, (1 : ℚ)), ("b".toList, (2 : ℚ))] 0).length →
          ((buildChapters segProbe Prod.fst
              [("a".toList, (1 : ℚ)), ("b".toList, (2 : ℚ))] 0).getD i
              defaultChapter).end_ =
            ((buildChapters segProbe Prod.fst
                [("a".toList, (1 : ℚ)), ("b".toList, (2 : ℚ))] 0).getD
                (i + 1) defaultChapter).start) :=
  ⟨by decide, by decide,
    assemble_chapters_contiguous _ (by decide) (by decide)⟩

/-! ## Claim C5 -/

/-- C5: for the three segments with durations `[60, 120.5, 30]` and names
`01_Intro.mp3`, `02_The_Journey.mp3`, `03_End.mp3`, the assembler derives
chapters `("Intro", 0, 60)`, `("The Journey", 60, 180.5)`,
`("End", 180.5, 210.5)`: titles from stripping the extension and the
ordinal prefix, replacing separators with spaces and title-casing; timings
from the cumulative duration cursor. -/
theorem assemble_scenario :
    buildChapters segProbe Prod.fst
        [("01_Intro.mp3".toList, (60 : ℚ)),
         ("02_The_Journey.mp3".toList, (241 : ℚ) / 2),
         ("03_End.mp3".toList, (30 : ℚ))] 0 =
      [{ title := "Intro".toList, start := 0, end_ := 60 },
       { title := "The Journey".toList, start := 60,
         end_ := (361 : ℚ) / 2 },
       { title := "End".toList, start := (361 : ℚ) / 2,
         end_ := (421 : ℚ) / 2 }] := by
  have ht1 : clean_title ("01_Intro.mp3".toList) = "Intro".toList := by decide
  have ht2 : clean_title ("02_The_Journey.mp3".toList) =
      "The Journey".toList := by decide
  have ht3 : clean_title ("03_End.mp3".toList) = "End".toList := by decide
  have hd : ∀ fd : List Char × ℚ,
      (get_audio_duration segProbe fd).1 = fd.2 := fun fd => rfl
  simp only [buildChapters, hd, ht1, ht2, ht3]
  norm_num

/-! ## Claim C8 -/

theorem buildChapters_degenerate {α : Type} (probe : α → Option ℚ)
    (name : α → List Char) :
    ∀ (fs : List α) (i : Nat) (hi : i < fs.length),
      probe (fs.get ⟨i, hi⟩) = none →
      ∀ cur : ℚ,
        ((buildChapters probe name fs cur).getD i defaultChapter).start =
          ((buildChapters probe name fs cur).getD i defaultChapter).end_
  | [], i, hi, _, _ => by simp at hi
  | f :: fs, 0, hi, hfail, cur => by
    have hf0 : probe f = none := hfail
    have hd : (get_audio_duration probe f).1 = 0 := by
      unfold get_audio_duration
      rw [hf0]
    simp [buildChapters, hd]
  | f :: fs, i + 1, hi, hfail, cur => by
    have e : buildChapters probe name (f :: fs) cur =
        { title := clean_title (name f), start := cur,
          end_ := cur + (get_audio_duration probe f).1 } ::
          buildChapters probe name fs
            (cur + (get_audio_duration probe f).1) := rfl
    rw [e, List.getD_cons_succ]
    exact buildChapters_degenerate probe name fs i
      (Nat.lt_of_succ_lt_succ hi)
      (show probe (fs.get ⟨i, Nat.lt_of_succ_lt_succ hi⟩) = none from hfail)
      (cur + (get_audio_duration probe f).1)

/-- C8: when the duration probe fails on a file, `get_audio_duration`
returns 0 instead of raising and runs its warning branch, and the affected
chapter is degenerate: its start equals its end (never `start > end`),
shifting all later chapter boundaries back by the lost duration. -/
theorem probe_failure_degrades {α : Type} (probe : α → Option ℚ)
    (name : α → List Char) (files : List α) (i : Nat)
    (hi : i < files.length)
    (hfail : probe (files.get ⟨i, hi⟩) = none) :
    get_audio_duration probe (files.get ⟨i, hi⟩) = (0, true) ∧
      ∀ cur : ℚ,
        ((buildChapters probe name files cur).getD i
            defaultChapter).start =
          ((buildChapters probe name files cur).getD i
            defaultChapter).end_ := by
  constructor
  · unfold get_audio_duration
    rw [hfail]
  · exact buildChapters_degenerate probe name files i hi hfail

/-- C8 witness: the theorem applied to a one-file list whose probe fails. -/
theorem probe_failure_degrades_witness :
    (0 < [(0 : Nat)].length) ∧
      (get_audio_duration (fun _ : Nat => (none : Option ℚ))
          ([(0 : Nat)].get ⟨0, by decide⟩) = (0, true) ∧
        ∀ cur : ℚ,
          ((buildChapters (fun _ : Nat => (none : Option ℚ))
              (fun _ => []) [(0 : Nat)] cur).getD 0
              defaultChapter).start =
            ((buildChapters (fun _ : Nat => (none : Option ℚ))
                (fun _ => []) [(0 : Nat)] cur).getD 0
                defaultChapter).end_) :=
  ⟨by decide,
    probe_failure_degrades (fun _ : Nat => (none : Option ℚ))
      (fun _ => []) [(0 : Nat)] 0 (by decide) rfl⟩

/-! ## Claim C10 -/

/-- C10: `create_m4b` called with an empty input file list returns `False`
immediately with no side effects: no concat-list file, no metadata file and
no output container are written, and no chapters are computed. -/
theorem create_m4b_empty {α : Type} (probe : α → Option ℚ)
    (name : α → List Char) (ffmpegOk : Bool) (out : List Char) :
    create_m4b probe name ffmpegOk ([] : List α) out = ([], [], false) :=
  rfl

/-! ## Lemmas: the section loop of `main` -/

theorem runSectionsAux_nil (synth : List Char → Bool) (stem ext : List Char)
    (n maxc : Nat) (disk : List (List Char)) :
    runSectionsAux synth stem ext n maxc disk [] = (disk, []) := rfl

theorem runSectionsAux_cons (synth : List Char → Bool) (stem ext : List Char)
    (n maxc : Nat) (disk : List (List Char))
    (sec : List Char × List Char) (rest : List (List Char × List Char)) :
    runSectionsAux synth stem ext n maxc disk (sec :: rest) =
      if (processSection synth stem ext n maxc disk sec).2.2 then
        ((runSectionsAux synth stem ext n maxc
            (processSection synth stem ext n maxc disk sec).1 rest).1,
          (processSection synth stem ext n maxc disk sec).2.1 ::
            (runSectionsAux synth stem ext n maxc
              (processSection synth stem ext n maxc disk sec).1 rest).2)
      else ((processSection synth stem ext n maxc disk sec).1,
        [(processSection synth stem ext n maxc disk sec).2.1]) := rfl

theorem chunkFileName_ne_outName (base ext : List Char) (j : Nat) :
    chunkFileName base j ext ≠ base ++ '.' :: ext := by
  intro h
  unfold chunkFileName at h
  rw [List.append_assoc, List.append_assoc] at h
  have h2 := List.append_cancel_left h
  have e : ("_chunk_".toList : List Char) = '_' :: "chunk_".toList := rfl
  rw [e, List.cons_append] at h2
  injection h2 with h3 h4
  exact absurd h3 (by decide)

theorem synthChunks_fail_names (synth : List Char → Bool)
    (outName base ext : List Char) (total : Nat) :
    ∀ (cs : List (List Char)) (idx : Nat), idx + cs.length ≤ total →
      (synthChunks synth outName base ext total idx cs).2 = false →
      ∀ f ∈ (synthChunks synth outName base ext total idx cs).1,
        ∃ j, f = chunkFileName base j ext
  | [], idx, _, hfail => by simp [synthChunks] at hfail
  | c :: cs, idx, hlen, hfail => by
    intro f hf
    cases hs : synth c with
    | false => simp [synthChunks, hs] at hf
    | true =>
      simp only [synthChunks, hs, if_true] at hfail hf
      cases cs with
      | nil => simp [synthChunks] at hfail
      | cons c2 cs2 =>
        have htot : total > 1 := by
          simp only [List.length_cons] at hlen
          omega
        rcases List.mem_cons.mp hf with hf | hf
        · exact ⟨idx, by rw [hf]; simp [if_pos htot]⟩
        · exact synthChunks_fail_names synth outName base ext total
            (c2 :: cs2) (idx + 1)
            (by simp only [List.length_cons] at hlen ⊢; omega) hfail f hf

theorem synthChunks_ok_length (synth : List Char → Bool)
    (outName base ext : List Char) (total : Nat) :
    ∀ (cs : List (List Char)) (idx : Nat),
      (synthChunks synth outName base ext total idx cs).2 = true →
      (synthChunks synth outName base ext total idx cs).1.length =
        cs.length
  | [], _, _ => rfl
  | c :: cs, idx, hok => by
    cases hs : synth c with
    | false => simp [synthChunks, hs] at hok
    | true =>
      simp only [synthChunks, hs, if_true] at hok ⊢
      simp [synthChunks_ok_length synth outName base ext total cs (idx + 1)
        hok]

theorem synthChunks_names_total_gt (synth : List Char → Bool)
    (outName base ext : List Char) (total : Nat) (htot : total > 1) :
    ∀ (cs : List (List Char)) (idx : Nat),
      ∀ f ∈ (synthChunks synth outName base ext total idx cs).1,
        ∃ j, f = chunkFileName base j ext
  | [], idx, f, hf => by simp [synthChunks] at hf
  | c :: cs, idx, f, hf => by
    cases hs : synth c with
    | false => simp [synthChunks, hs] at hf
    | true =>
      simp only [synthChunks, hs, if_true] at hf
      rcases List.mem_cons.mp hf with hf | hf
      · exact ⟨idx, by rw [hf]; simp [if_pos htot]⟩
      · exact synthChunks_names_total_gt synth outName base ext total htot
          cs (idx + 1) f hf

theorem processSection_success (synth : List Char → Bool)
    (stem ext : List Char) (n maxc : Nat) (disk : List (List Char))
    (t c : List Char)
    (hnx : (safeTitleFor stem n t ++ '.' :: ext) ∉ disk)
    (hne : strip (clean_text_for_speech c) ≠ [])
    (hch : split_text_into_chunks (clean_text_for_speech c) maxc ≠ [])
    (hok : (synthChunks synth (safeTitleFor stem n t ++ '.' :: ext)
        (safeTitleFor stem n t) ext
        (split_text_into_chunks (clean_text_for_speech c) maxc).length 0
        (split_text_into_chunks (clean_text_for_speech c) maxc)).2 =
      true) :
    (processSection synth stem ext n maxc disk (t, c)).2.1 =
        some (safeTitleFor stem n t ++ '.' :: ext) ∧
      (processSection synth stem ext n maxc disk (t, c)).2.2 = true ∧
      (safeTitleFor stem n t ++ '.' :: ext) ∈
        (processSection synth stem ext n maxc disk (t, c)).1 := by
  have hfl := synthChunks_ok_length synth
    (safeTitleFor stem n t ++ '.' :: ext) (safeTitleFor stem n t) ext
    (split_text_into_chunks (clean_text_for_speech c) maxc).length
    (split_text_into_chunks (clean_text_for_speech c) maxc) 0 hok
  simp only [processSection]
  rw [if_neg hnx, if_neg hne]
  rw [if_pos hok]
  split
  · rename_i hgt
    refine ⟨rfl, rfl, ?_⟩
    rw [List.mem_filter]
    constructor
    · simp
    · have hnmem : (safeTitleFor stem n t ++ '.' :: ext) ∉
          (synthChunks synth (safeTitleFor stem n t ++ '.' :: ext)
            (safeTitleFor stem n t) ext
            (split_text_into_chunks (clean_text_for_speech c) maxc).length
            0 (split_text_into_chunks (clean_text_for_speech c) maxc)).1 := by
        intro hmem
        obtain ⟨j, hj⟩ := synthChunks_names_total_gt synth
          (safeTitleFor stem n t ++ '.' :: ext) (safeTitleFor stem n t) ext
          (split_text_into_chunks (clean_text_for_speech c) maxc).length
          (by omega : (split_text_into_chunks
            (clean_text_for_speech c) maxc).length > 1)
          (split_text_into_chunks (clean_text_for_speech c) maxc) 0 _ hmem
        exact chunkFileName_ne_outName (safeTitleFor stem n t) ext j hj.symm
      simpa using hnmem
  · rename_i hle
    refine ⟨rfl, rfl, ?_⟩
    cases hcs : split_text_into_chunks (clean_text_for_speech c) maxc with
    | nil => exact absurd hcs hch
    | cons c0 cs0 =>
      cases cs0 with
      | nil =>
        cases hs : synth c0 with
        | false =>
          rw [hcs] at hok
          simp [synthChunks, hs] at hok
        | true =>
          have e : synthChunks synth
              (safeTitleFor stem n t ++ '.' :: ext) (safeTitleFor stem n t)
              ext [c0].length 0 [c0] =
              ([safeTitleFor stem n t ++ '.' :: ext], true) := by
            simp [synthChunks, hs]
          rw [e]
          simp
      | cons c1 cs1 =>
        rw [hcs] at hfl hle
        rw [hfl] at hle
        simp at hle

/-! ## Claim C4 -/

/-- C4 is false as stated: with a document of two sections `A` and `B`
where synthesis fails on section `A`'s only chunk, the claim demands that
processing continue with the sibling section `B`; the code instead calls
`sys.exit(1)`, so the run ends with only the failed section attempted
(one `none` entry, nothing for `B`) and an empty disk. -/
theorem synthesis_failure_cex :
    runDocument (fun c => decide (c ≠ "A\nx".toList)) "book".toList
        "mp3".toList 100 "# A\nx\n# B\ny".toList =
      ([], [none]) := by
  decide

/-- C4 (amended): when the synthesis capability fails on a chunk of the
first section (and that section is not skipped), the section produces no
assembled output — the chunk artifacts already written remain on disk and
the section output file is not among them — and the entire run aborts: the
sibling sections are never processed, the run returning after this single
section. -/
theorem synthesis_failure_aborts_run (synth : List Char → Bool)
    (stem ext : List Char) (maxc : Nat) (t c : List Char)
    (rest : List (List Char × List Char))
    (hne : strip (clean_text_for_speech c) ≠ [])
    (hfail : (synthChunks synth
        (safeTitleFor stem ((t, c) :: rest).length t ++ '.' :: ext)
        (safeTitleFor stem ((t, c) :: rest).length t) ext
        (split_text_into_chunks (clean_text_for_speech c) maxc).length 0
        (split_text_into_chunks (clean_text_for_speech c) maxc)).2 =
      false) :
    runMain synth stem ext maxc ((t, c) :: rest) =
        ((synthChunks synth
            (safeTitleFor stem ((t, c) :: rest).length t ++ '.' :: ext)
            (safeTitleFor stem ((t, c) :: rest).length t) ext
            (split_text_into_chunks (clean_text_for_speech c) maxc).length
            0 (split_text_into_chunks (clean_text_for_speech c) maxc)).1,
          [none]) ∧
      (safeTitleFor stem ((t, c) :: rest).length t ++ '.' :: ext) ∉
        (synthChunks synth
            (safeTitleFor stem ((t, c) :: rest).length t ++ '.' :: ext)
            (safeTitleFor stem ((t, c) :: rest).length t) ext
            (split_text_into_chunks (clean_text_for_speech c) maxc).length
            0 (split_text_into_chunks (clean_text_for_speech c) maxc)).1 := by
  have hps : processSection synth stem ext ((t, c) :: rest).length maxc []
      (t, c) =
      ((synthChunks synth
          (safeTitleFor stem ((t, c) :: rest).length t ++ '.' :: ext)
          (safeTitleFor stem ((t, c) :: rest).length t) ext
          (split_text_into_chunks (clean_text_for_speech c) maxc).length 0
          (split_text_into_chunks (clean_text_for_speech c) maxc)).1,
        none, false) := by
    simp only [processSection]
    rw [if_neg (List.not_mem_nil _), if_neg hne, hfail]
    simp
  constructor
  · unfold runMain
    rw [runSectionsAux_cons, hps]
    simp
  · intro hmem
    obtain ⟨j, hj⟩ := synthChunks_fail_names synth
      (safeTitleFor stem ((t, c) :: rest).length t ++ '.' :: ext)
      (safeTitleFor stem ((t, c) :: rest).length t) ext
      (split_text_into_chunks (clean_text_for_speech c) maxc).length
      (split_text_into_chunks (clean_text_for_speech c) maxc) 0
      (by omega) hfail _ hmem
    exact chunkFileName_ne_outName
      (safeTitleFor stem ((t, c) :: rest).length t) ext j hj.symm

/-- C4 witness: the amended theorem applied to a two-section document whose
first section's only chunk fails to synthesize. -/
theorem synthesis_failure_aborts_run_witness :
    (strip (clean_text_for_speech "hello".toList) ≠ []) ∧
      ((synthChunks (fun s => decide (s ≠ "hello".toList))
          (safeTitleFor "book".toList
            ((("A".toList, "hello".toList) : List Char × List Char) ::
              [("B".toList, "w".toList)]).length "A".toList ++
            '.' :: "mp3".toList)
          (safeTitleFor "book".toList
            ((("A".toList, "hello".toList) : List Char × List Char) ::
              [("B".toList, "w".toList)]).length "A".toList) "mp3".toList
          (split_text_into_chunks
            (clean_text_for_speech "hello".toList) 100).length 0
          (split_text_into_chunks
            (clean_text_for_speech "hello".toList) 100)).2 = false) ∧
      (runMain (fun s => decide (s ≠ "hello".toList)) "book".toList
          "mp3".toList 100
          (("A".toList, "hello".toList) :: [("B".toList, "w".toList)]) =
          ((synthChunks (fun s => decide (s ≠ "hello".toList))
              (safeTitleFor "book".toList
                ((("A".toList, "hello".toList) : List Char × List Char) ::
                  [("B".toList, "w".toList)]).length "A".toList ++
                '.' :: "mp3".toList)
              (safeTitleFor "book".toList
                ((("A".toList, "hello".toList) : List Char × List Char) ::
                  [("B".toList, "w".toList)]).length "A".toList)
              "mp3".toList
              (split_text_into_chunks
                (clean_text_for_speech "hello".toList) 100).length 0
              (split_text_into_chunks
                (clean_text_for_speech "hello".toList) 100)).1,
            [none]) ∧
        (safeTitleFor "book".toList
            ((("A".toList, "hello".toList) : List Char × List Char) ::
              [("B".toList, "w".toList)]).length "A".toList ++
            '.' :: "mp3".toList) ∉
          (synthChunks (fun s => decide (s ≠ "hello".toList))
              (safeTitleFor "book".toList
                ((("A".toList, "hello".toList) : List Char × List Char) ::
                  [("B".toList, "w".toList)]).length "A".toList ++
                '.' :: "mp3".toList)
              (safeTitleFor "book".toList
                ((("A".toList, "hello".toList) : List Char × List Char) ::
                  [("B".toList, "w".toList)]).length "A".toList)
              "mp3".toList
              (split_text_into_chunks
                (clean_text_for_speech "hello".toList) 100).length 0
              (split_text_into_chunks
                (clean_text_for_speech "hello".toList) 100)).1) :=
  ⟨by decide, by decide,
    synthesis_failure_aborts_run (fun s => decide (s ≠ "hello".toList))
      "book".toList "mp3".toList 100 "A".toList "hello".toList
      [("B".toList, "w".toList)] (by decide) (by decide)⟩

/-! ## Claim C7 -/

theorem processSection_skip (synth : List Char → Bool)
    (stem ext : List Char) (n maxc : Nat) (disk : List (List Char))
    (sec : List Char × List Char)
    (hmem : (safeTitleFor stem n sec.1 ++ '.' :: ext) ∈ disk) :
    processSection synth stem ext n maxc disk sec = (disk, none, true) := by
  simp only [processSection]
  rw [if_pos hmem]

/-- C7 is false as stated: the document `"# A\nx\n# A\ny"` has two distinct
sections with the equal title `A`; the claim demands two distinct output
identifiers, but the code derives the same file name `A.mp3` for both, so
the second section is skipped by the already-exists check and receives no
output identifier at all (entry `none`) — no disambiguation happens. -/
theorem duplicate_title_cex :
    (runDocument (fun _ => true) "book".toList "mp3".toList 100
        "# A\nx\n# A\ny".toList).2 =
      [some "A.mp3".toList, none] := by
  decide

/-- C7 (amended): two sections with the same (non-preamble-special) title
map to the same output identifier; the pipeline does not disambiguate —
when the first section completes, the second is silently skipped by the
already-exists check and produces no output. -/
theorem duplicate_title_skips (synth : List Char → Bool)
    (stem ext : List Char) (maxc : Nat) (t c1 c2 : List Char)
    (hne : strip (clean_text_for_speech c1) ≠ [])
    (hch : split_text_into_chunks (clean_text_for_speech c1) maxc ≠ [])
    (hok : (synthChunks synth (safeTitleFor stem 2 t ++ '.' :: ext)
        (safeTitleFor stem 2 t) ext
        (split_text_into_chunks (clean_text_for_speech c1) maxc).length 0
        (split_text_into_chunks (clean_text_for_speech c1) maxc)).2 =
      true) :
    (runMain synth stem ext maxc [(t, c1), (t, c2)]).2 =
      [some (safeTitleFor stem 2 t ++ '.' :: ext), none] := by
  obtain ⟨ho1, ho2, ho3⟩ := processSection_success synth stem ext 2 maxc []
    t c1 (List.not_mem_nil _) hne hch hok
  unfold runMain
  show (runSectionsAux synth stem ext 2 maxc [] [(t, c1), (t, c2)]).2 =
    [some (safeTitleFor stem 2 t ++ '.' :: ext), none]
  rw [runSectionsAux_cons, if_pos ho2, runSectionsAux_cons,
    processSection_skip synth stem ext 2 maxc
      (processSection synth stem ext 2 maxc [] (t, c1)).1 (t, c2) ho3]
  simp [runSectionsAux_nil, ho1]

/-- C7 witness: the amended theorem applied to two sections titled `A`
with contents `hello` and `world` and an always-succeeding provider. -/
theorem duplicate_title_skips_witness :
    (strip (clean_text_for_speech "hello".toList) ≠ []) ∧
      (split_text_into_chunks (clean_text_for_speech "hello".toList) 100 ≠
        []) ∧
      ((synthChunks (fun _ => true)
          (safeTitleFor "book".toList 2 "A".toList ++ '.' :: "mp3".toList)
          (safeTitleFor "book".toList 2 "A".toList) "mp3".toList
          (split_text_into_chunks
            (clean_text_for_speech "hello".toList) 100).length 0
          (split_text_into_chunks
            (clean_text_for_speech "hello".toList) 100)).2 = true) ∧
      (runMain (fun _ => true) "book".toList "mp3".toList 100
          [("A".toList, "hello".toList), ("A".toList, "world".toList)]).2 =
        [some (safeTitleFor "book".toList 2 "A".toList ++
          '.' :: "mp3".toList), none] :=
  ⟨by decide, by decide, by decide,
    duplicate_title_skips (fun _ => true) "book".toList "mp3".toList 100
      "A".toList "hello".toList "world".toList (by decide) (by decide)
      (by decide)⟩

end OTA
